import Mathlib

/-!
Verification of `librosa/core/time_frequency.py`.

This file gives a shallow embedding of the functions of the module that the
claims refer to (frame/sample/time conversions, note-name parsing, MIDI
formatting, the key-signature spelling resolver, and the frequency weighting
curves), and proves or refutes the claims against that embedding.

Machine integers are modelled as `Int`/`Nat`, Python floats as `ℚ` (the claims
under study are about integer arithmetic, shapes and string outputs, not about
floating-point rounding), and fallible code as `Except String`/`Option`.
-/

namespace Librosa

/-! ### Python / numpy numeric helpers -/

/-- Python `int(x)` applied to a float: truncation toward zero. -/
def pyTrunc (q : ℚ) : Int :=
  if 0 ≤ q then q.floor else -((-q).floor)

/-- `np.round` on a scalar: round half to even (banker's rounding). -/
def npRound (q : ℚ) : Int :=
  let f := q.floor
  let r := q - (f : ℚ)
  if r < 1/2 then f
  else if 1/2 < r then f + 1
  else if f % 2 = 0 then f else f + 1

/-- `np.around(x, 2)`: round half to even at two decimal places. -/
def npAround2 (q : ℚ) : ℚ :=
  (npRound (q * 100) : ℚ) / 100

/-! ### Sample/frame/time conversion family

Arrays are modelled by `NpVal`: a numpy argument is either a scalar or a
one-dimensional array.  Elementwise numpy arithmetic on such a value is
`mapNp`. -/

inductive NpVal (α : Type) where
  | scalar (x : α)
  | arr (xs : List α)
deriving DecidableEq

def mapNp {α β : Type} (f : α → β) : NpVal α → NpVal β
  | .scalar x => .scalar (f x)
  | .arr xs => .arr (xs.map f)

/-- The shape of a numpy value: `none` for a scalar, `some n` for a
1-d array of length `n`. -/
def npShape {α : Type} : NpVal α → Option Nat
  | .scalar _ => none
  | .arr xs => some xs.length

/-- `offset = int(n_fft // 2)` when an FFT window is supplied, else 0. -/
def fftOffset (n_fft : Option Int) : Int :=
  match n_fft with
  | none => 0
  | some n => Int.fdiv n 2

/-- `frames_to_samples` on one frame index:
`frames * hop_length + offset`. -/
def frames_to_samples_c (frames hop_length : Int) (n_fft : Option Int) : Int :=
  frames * hop_length + fftOffset n_fft

/-- `samples_to_frames` on one sample index:
`(samples - offset) // hop_length` (Python floor division). -/
def samples_to_frames_c (samples hop_length : Int) (n_fft : Option Int) : Int :=
  Int.fdiv (samples - fftOffset n_fft) hop_length

/-- `time_to_samples` on one time value: `(times * sr).astype(int)`
(numpy's cast to int truncates toward zero). -/
def time_to_samples_c (times sr : ℚ) : Int :=
  pyTrunc (times * sr)

/-- `samples_to_time` on one sample index: `samples / float(sr)`. -/
def samples_to_time_c (samples : Int) (sr : ℚ) : ℚ :=
  (samples : ℚ) / sr

def frames_to_samples (v : NpVal Int) (hop_length : Int) (n_fft : Option Int) : NpVal Int :=
  mapNp (fun f => frames_to_samples_c f hop_length n_fft) v

def samples_to_frames (v : NpVal Int) (hop_length : Int) (n_fft : Option Int) : NpVal Int :=
  mapNp (fun s => samples_to_frames_c s hop_length n_fft) v

def time_to_samples (v : NpVal ℚ) (sr : ℚ) : NpVal Int :=
  mapNp (fun t => time_to_samples_c t sr) v

def samples_to_time (v : NpVal Int) (sr : ℚ) : NpVal ℚ :=
  mapNp (fun s => samples_to_time_c s sr) v

/-- `frames_to_time`: composes `frames_to_samples` with `samples_to_time`. -/
def frames_to_time (v : NpVal Int) (sr : ℚ) (hop_length : Int) (n_fft : Option Int) : NpVal ℚ :=
  samples_to_time (frames_to_samples v hop_length n_fft) sr

/-- `time_to_frames`: composes `time_to_samples` with `samples_to_frames`. -/
def time_to_frames (v : NpVal ℚ) (sr : ℚ) (hop_length : Int) (n_fft : Option Int) : NpVal Int :=
  samples_to_frames (time_to_samples v sr) hop_length n_fft

lemma npShape_mapNp {α β : Type} (f : α → β) (v : NpVal α) :
    npShape (mapNp f v) = npShape v := by
  cases v <;> simp [mapNp, npShape]

/-! ### Note-name parsing (`note_to_midi`)

The source matches the note string against the regular expression
`^([A-Ga-g])([#♯𝄪b!♭𝄫♮]*)([+-]?\d+)?([+-]\d+)?$` and raises
`ParameterError` when there is no match.  The embedding below is a
deterministic translation of that regex: every character class is a
predicate, each starred/optional group is a greedy take, and `$` accepts
either the end of the string or a single trailing newline (Python's `re`
semantics for `$` without `re.MULTILINE`).

The pattern is a str pattern without `re.ASCII`, so `\d` is the full
Unicode decimal-digit class `Nd` (e.g. it also matches '٤', U+0664), and
Python's `int` reads each such digit with its decimal value.  That class
is Unicode-version-dependent, so it is embedded as an explicit parameter:
a `PyDigitClass` packages the digit predicate together with the
digit-value function and the facts about `Nd` that the development uses —
the class contains the ASCII digits (with their usual values), and no
accidental, sign or newline character is a decimal digit.  `asciiDigits`
is the concrete restriction to ASCII, which agrees with `Nd` on every
ASCII string and is used to evaluate the embedding at concrete ASCII
inputs. -/

def isNoteLetter (c : Char) : Bool :=
  c == 'A' || c == 'B' || c == 'C' || c == 'D' || c == 'E' || c == 'F' || c == 'G' ||
  c == 'a' || c == 'b' || c == 'c' || c == 'd' || c == 'e' || c == 'f' || c == 'g'

def isAccidentalChar (c : Char) : Bool :=
  c == '#' || c == '♯' || c == '𝄪' || c == 'b' || c == '!' || c == '♭' || c == '𝄫' || c == '♮'

def isSignChar (c : Char) : Bool :=
  c == '+' || c == '-'

/-- The ASCII decimal digits, a subset of Python's `\d`. -/
def isAsciiDigit (c : Char) : Bool :=
  '0' ≤ c && c ≤ '9'

lemma sign_eq_of_isSignChar {c : Char} (h : isSignChar c = true) : c = '+' ∨ c = '-' := by
  simpa [isSignChar] using h

lemma sign_not_acc {c : Char} (h : isSignChar c = true) : isAccidentalChar c = false := by
  rcases sign_eq_of_isSignChar h with rfl | rfl <;> decide

lemma asciiDigit_not_acc {c : Char} (h : isAsciiDigit c = true) :
    isAccidentalChar c = false := by
  by_contra hcon
  have hacc : isAccidentalChar c = true := by
    cases hx : isAccidentalChar c
    · exact absurd hx hcon
    · rfl
  simp only [isAccidentalChar, Bool.or_eq_true, beq_iff_eq] at hacc
  rcases hacc with ((((((h1 | h1) | h1) | h1) | h1) | h1) | h1) | h1 <;> subst h1 <;>
    exact absurd h (by decide)

lemma asciiDigit_not_sign {c : Char} (h : isAsciiDigit c = true) : isSignChar c = false := by
  by_contra hcon
  have hs : isSignChar c = true := by
    cases hx : isSignChar c
    · exact absurd hx hcon
    · rfl
  rcases sign_eq_of_isSignChar hs with rfl | rfl <;> exact absurd h (by decide)

/-- A model of Python's `\d` (the Unicode decimal-digit class `Nd`),
together with the decimal value `int` assigns to each digit.  Any faithful
model contains the ASCII digits with their usual values, and no accidental,
sign or newline character is a decimal digit — these are facts of Unicode,
true of `Nd` in every Unicode version. -/
structure PyDigitClass where
  isDigit : Char → Bool
  val : Char → Nat
  ascii_isDigit : ∀ c, isAsciiDigit c = true → isDigit c = true
  ascii_val : ∀ c, isAsciiDigit c = true → val c = c.toNat - 48
  isDigit_not_acc : ∀ c, isDigit c = true → isAccidentalChar c = false
  isDigit_not_sign : ∀ c, isDigit c = true → isSignChar c = false
  newline_not_isDigit : isDigit '\n' = false

/-- The restriction of `\d` to ASCII; it agrees with the full Unicode class
on every ASCII string. -/
def asciiDigits : PyDigitClass where
  isDigit := isAsciiDigit
  val := fun c => c.toNat - 48
  ascii_isDigit := fun _ h => h
  ascii_val := fun _ _ => rfl
  isDigit_not_acc := fun _ h => asciiDigit_not_acc h
  isDigit_not_sign := fun _ h => asciiDigit_not_sign h
  newline_not_isDigit := by decide

lemma not_digit_of_sign (D : PyDigitClass) {c : Char} (h : isSignChar c = true) :
    D.isDigit c = false := by
  cases hx : D.isDigit c
  · rfl
  · rw [D.isDigit_not_sign c hx] at h
    exact absurd h (by simp)

/-- Greedy match of a character-class star (`[...]∗`): the longest prefix
whose characters satisfy `p`, together with the rest. -/
def spanP (p : Char → Bool) : List Char → List Char × List Char
  | [] => ([], [])
  | c :: cs =>
    if p c then
      let r := spanP p cs
      (c :: r.1, r.2)
    else ([], c :: cs)

/-- Greedy match of the optional octave group `([+-]?\d+)?`, over the digit
class `dg`. -/
def takeOctave (dg : Char → Bool) (cs : List Char) : List Char × List Char :=
  match cs with
  | [] => ([], [])
  | c :: rest =>
    if dg c then
      let r := spanP dg rest
      (c :: r.1, r.2)
    else if isSignChar c then
      match rest with
      | [] => ([], [c])
      | d :: ds =>
        if dg d then
          let r := spanP dg ds
          (c :: d :: r.1, r.2)
        else ([], c :: d :: ds)
    else ([], c :: rest)

/-- Greedy match of the optional cents group `([+-]\d+)?` (sign mandatory),
over the digit class `dg`. -/
def takeCents (dg : Char → Bool) (cs : List Char) : List Char × List Char :=
  match cs with
  | [] => ([], [])
  | c :: rest =>
    if isSignChar c then
      match rest with
      | [] => ([], [c])
      | d :: ds =>
        if dg d then
          let r := spanP dg ds
          (c :: d :: r.1, r.2)
        else ([], c :: d :: ds)
    else ([], c :: rest)

/-- Python `re`'s `$` (default flags): end of string, or just before a single
trailing newline. -/
def atLineEnd (cs : List Char) : Bool :=
  cs == [] || cs == ['\n']

/-- The four capture groups of the note regex. -/
structure NoteMatch where
  letter : Char
  accidentals : List Char
  octavePart : List Char
  centsPart : List Char
deriving DecidableEq

/-- The full note regex, over the digit class `dg`: returns the capture
groups, or `none` when the string does not match. -/
def matchNote (dg : Char → Bool) (cs : List Char) : Option NoteMatch :=
  match cs with
  | [] => none
  | c :: rest =>
    if isNoteLetter c then
      let a := spanP isAccidentalChar rest
      let o := takeOctave dg a.2
      let t := takeCents dg o.2
      if atLineEnd t.2 then some ⟨c, a.1, o.1, t.1⟩ else none
    else none

/-- Python `str.upper` restricted to ASCII letters. -/
def pyUpper (c : Char) : Char :=
  if 'a' ≤ c && c ≤ 'z' then Char.ofNat (c.toNat - 32) else c

/-- `pitch_map = {'C': 0, 'D': 2, 'E': 4, 'F': 5, 'G': 7, 'A': 9, 'B': 11}`. -/
def pitch_map (c : Char) : Int :=
  if c = 'C' then 0
  else if c = 'D' then 2
  else if c = 'E' then 4
  else if c = 'F' then 5
  else if c = 'G' then 7
  else if c = 'A' then 9
  else 11

/-- `acc_map = {'#': 1, '': 0, 'b': -1, '!': -1, '♯': 1, '𝄪': 2, '♭': -1,
'𝄫': -2, '♮': 0}`. -/
def acc_map (c : Char) : Int :=
  if c = '#' ∨ c = '♯' then 1
  else if c = '𝄪' then 2
  else if c = 'b' ∨ c = '!' ∨ c = '♭' then -1
  else if c = '𝄫' then -2
  else 0

/-- Value of a (sign-free) digit string, as Python `int` reads it: each
digit contributes its decimal value under the digit class. -/
def digitsVal (dval : Char → Nat) (ds : List Char) : Int :=
  ds.foldl (fun a c => a * 10 + (dval c : Int)) 0

/-- Python `int` on an optionally signed digit string. -/
def signedIntVal (dval : Char → Nat) (cs : List Char) : Int :=
  match cs with
  | '+' :: ds => digitsVal dval ds
  | '-' :: ds => -(digitsVal dval ds)
  | ds => digitsVal dval ds

/-- `note_to_midi(note, round_midi)` on a single string, over the digit
class `D`.  Returns the MIDI number (an integer-valued rational when
`round_midi` is true), or the `ParameterError` message when the string does
not match the note regex. -/
def note_to_midi (D : PyDigitClass) (note : String) (round_midi : Bool) : Except String ℚ :=
  match matchNote D.isDigit note.data with
  | none => .error ("Improper note format: " ++ note)
  | some m =>
    let pitch := pitch_map (pyUpper m.letter)
    let offset : Int := (m.accidentals.map acc_map).sum
    let octave : Int := if m.octavePart.isEmpty then 0 else signedIntVal D.val m.octavePart
    let cents : ℚ :=
      if m.centsPart.isEmpty then 0 else (signedIntVal D.val m.centsPart : ℚ) * (1/100)
    let note_value : ℚ := 12 * ((octave : ℚ) + 1) + (pitch : ℚ) + (offset : ℚ) + cents
    .ok (if round_midi then (npRound note_value : ℚ) else note_value)

/-! ### Key-signature note-spelling resolver (`key_to_notes`)

The source matches the key string against
`^([A-Ga-g])([#♯b!♭]?):((maj|min)(or)?)$` and then decides the sharp/flat
spelling from the tonic's accidental and its circle-of-fifths position.
Note that in the source the local variable `use_sharps` is left unassigned
when `offset == 0` and `tonic_number == 6`; that path is modelled by
`Option.none` (in Python it would be an `UnboundLocalError`, not a
`ParameterError`). -/

def isKeyAccidentalChar (c : Char) : Bool :=
  c == '#' || c == '♯' || c == 'b' || c == '!' || c == '♭'

/-- End of the key regex: `(or)?$`, with Python's `$` semantics. -/
def scaleEnd (cs : List Char) (major : Bool) : Option Bool :=
  match cs with
  | [] => some major
  | 'o' :: 'r' :: r => if atLineEnd r then some major else none
  | ['\n'] => some major
  | _ => none

/-- The scale group `(maj|min)(or)?` followed by the end anchor.  Returns
whether the scale is major.  (The source lowercases `scale[:3]`, but the
regex only admits the lower-case literals `maj`/`min`.) -/
def parseScale (cs : List Char) : Option Bool :=
  match cs with
  | 'm' :: 'a' :: 'j' :: r => scaleEnd r true
  | 'm' :: 'i' :: 'n' :: r => scaleEnd r false
  | _ => none

/-- The optional accidental group `([#♯b!♭]?)` after the tonic letter. -/
def takeKeyAcc (cs : List Char) : Option Char × List Char :=
  match cs with
  | [] => (none, [])
  | c :: r => if isKeyAccidentalChar c then (some c, r) else (none, c :: r)

/-- The key regex: returns the tonic letter, its optional accidental, and
whether the scale is major. -/
def parseKey (cs : List Char) : Option (Char × Option Char × Bool) :=
  match cs with
  | [] => none
  | t :: rest =>
    if isNoteLetter t then
      match takeKeyAcc rest with
      | (acc, ':' :: r2) => (parseScale r2).map (fun mj => (t, acc, mj))
      | _ => none
    else none

/-- `acc_map = {'#': 1, '': 0, 'b': -1, '!': -1, '♯': 1, '♭': -1}` applied to
the optional accidental group (`''` is the no-accidental case). -/
def keyAccOffset (acc : Option Char) : Int :=
  match acc with
  | none => 0
  | some c => if c = '#' ∨ c = '♯' then 1 else -1

/-- Circle-of-fifths position of the tonic (`== # sharps`):
`((pitch + offset) * 7) % 12` for major, with `+ 9` before the mod for
minor.  Python `%` on a positive modulus is `Int.emod`. -/
def tonic_number (pitch offset : Int) (major : Bool) : Int :=
  if major then ((pitch + offset) * 7).emod 12
  else ((pitch + offset) * 7 + 9).emod 12

/-- The sharp/flat decision of `key_to_notes` (lines 1819-1831):
`none` is the fall-through path on which the source leaves `use_sharps`
unassigned. -/
def use_sharps_opt (offset tn : Int) : Option Bool :=
  if offset < 0 then some false
  else if 0 < offset then some true
  else if 0 ≤ tn ∧ tn < 6 then some true
  else if 6 < tn then some false
  else none

def notes_sharp : List String :=
  ["C", "C♯", "D", "D♯", "E", "F", "F♯", "G", "G♯", "A", "A♯", "B"]

def notes_flat : List String :=
  ["C", "D♭", "D", "E♭", "E", "F", "G♭", "G", "A♭", "A", "B♭", "B"]

/-- Corrections applied (in this order) when the key has ≥ 6 sharps. -/
def sharp_corrections : List (Nat × String) :=
  [(5, "E♯"), (0, "B♯"), (7, "F𝄪"), (2, "C𝄪"), (9, "G𝄪"), (4, "D𝄪"), (11, "A𝄪")]

/-- Corrections applied (in this order) when the key has ≥ 6 flats. -/
def flat_corrections : List (Nat × String) :=
  [(11, "C♭"), (4, "F♭"), (9, "B𝄫"), (2, "E𝄫"), (7, "A𝄫"), (0, "D𝄫")]

/-- `for n in range(0, count): notes[index] = name` over a correction table:
the first `max count 0` corrections overwrite their semitone entries. -/
def applyCorrections (corr : List (Nat × String)) (count : Int) (base : List String) :
    List String :=
  (corr.take count.toNat).foldl (fun ns p => ns.set p.1 p.2) base

/-- The mod-12 adjustment distinguishing B♯:maj from C:maj:
`n_sharps = 12` when `tonic_number == 0` and the tonic letter is `B`. -/
def n_sharps_adj (tonicU : Char) (tn : Int) : Int :=
  if tn = 0 ∧ tonicU = 'B' then 12 else tn

/-- Unicode down-translation `♯→#, 𝄪→##, ♭→b, 𝄫→bb` of one note name. -/
def deUnicode (s : String) : String :=
  String.join (s.data.map fun c =>
    if c = '♯' then "#"
    else if c = '𝄪' then "##"
    else if c = '♭' then "b"
    else if c = '𝄫' then "bb"
    else String.mk [c])

/-- The local `tonic_number` of `key_to_notes` for a parsed key. -/
def keyTonicNum (tonic : Char) (acc : Option Char) (major : Bool) : Int :=
  tonic_number (pitch_map (pyUpper tonic)) (keyAccOffset acc) major

/-- The local `use_sharps` of `key_to_notes` for a parsed key
(`none` when the source leaves it unassigned). -/
def keyUseSharps (tonic : Char) (acc : Option Char) (major : Bool) : Option Bool :=
  use_sharps_opt (keyAccOffset acc) (keyTonicNum tonic acc major)

/-- The local `n_sharps` of `key_to_notes` for a parsed key, after the
B♯ adjustment. -/
def keyNSharps (tonic : Char) (acc : Option Char) (major : Bool) : Int :=
  n_sharps_adj (pyUpper tonic) (keyTonicNum tonic acc major)

/-- The local `n_flats` of `key_to_notes`: `(12 - tonic_number) % 12`. -/
def keyNFlats (tonic : Char) (acc : Option Char) (major : Bool) : Int :=
  (12 - keyTonicNum tonic acc major).emod 12

/-- The body of `key_to_notes` after the regex match, on the parsed tonic
letter, optional accidental and mode.  `none` models the unassigned
`use_sharps` path. -/
def key_to_notes_core (tonic : Char) (acc : Option Char) (major unicode : Bool) :
    Option (List String) :=
  match keyUseSharps tonic acc major with
  | none => none
  | some use_sharps =>
    let notes :=
      if use_sharps then
        applyCorrections sharp_corrections (keyNSharps tonic acc major - 6 + 1) notes_sharp
      else
        applyCorrections flat_corrections (keyNFlats tonic acc major - 6 + 1) notes_flat
    some (if unicode then notes else notes.map deUnicode)

/-- `key_to_notes(key, unicode)`: parse the key string, then resolve the
12-entry spelling table. -/
def key_to_notes (key : String) (unicode : Bool) : Except String (List String) :=
  match parseKey key.data with
  | none => .error ("Improper key format: " ++ key)
  | some (t, a, m) =>
    match key_to_notes_core t a m unicode with
    | some notes => .ok notes
    | none => .error "UnboundLocalError: local variable use_sharps referenced before assignment"

/-! ### `midi_to_note` -/

/-- Python `'{:+02d}'.format(n)`: a mandatory sign followed by the digits
(for a signed `d`-format, a width of 2 never forces any zero padding). -/
def formatPlus02d (n : Int) : String :=
  if 0 ≤ n then "+" ++ toString n else toString n

/-- `midi_to_note(midi, octave, cents, key, unicode)` on a scalar input. -/
def midi_to_note (midi : ℚ) (octave cents : Bool) (key : String) (unicode : Bool) :
    Except String String :=
  if cents && !octave then
    .error "Cannot encode cents without octave information."
  else
    match key_to_notes key unicode with
    | .error e => .error e
    | .ok note_map =>
      let note_num : Int := npRound midi
      let note_cents : Int := pyTrunc (100 * npAround2 (midi - (note_num : ℚ)))
      let note0 := note_map.getD (note_num.emod 12).toNat ""
      let note1 := if octave then note0 ++ toString (pyTrunc ((note_num : ℚ) / 12) - 1) else note0
      let note2 := if cents then note1 ++ formatPlus02d note_cents else note1
      .ok note2

/-! ### Frequency-weighting curves

The A/B/C/D curves are closed-form expressions in `log10`; since `log10` is
transcendental, the embedding takes it as an explicit function argument (the
claims under study concern shapes and the identically-zero Z curve, which do
not depend on the value of `log10`).  `Z_weighting` is the one curve that
calls `len(frequencies)`, which raises a `TypeError` on a scalar input. -/

/-- `np.maximum(min_db, weights)` broadcast over a scalar-or-array value. -/
def npMaximum (min_db : ℚ) (w : NpVal ℚ) : NpVal ℚ :=
  mapNp (fun x => max min_db x) w

def A_weighting (log10 : ℚ → ℚ) (frequencies : NpVal ℚ) (min_db : Option ℚ) : NpVal ℚ :=
  let w := mapNp (fun f =>
    let f_sq := f ^ 2
    2 + 20 * (log10 (12200 ^ 2)
      + 2 * log10 f_sq
      - log10 (f_sq + 12200 ^ 2)
      - log10 (f_sq + (206/10) ^ 2)
      - (1/2) * log10 (f_sq + (1077/10) ^ 2)
      - (1/2) * log10 (f_sq + (7379/10) ^ 2))) frequencies
  match min_db with
  | none => w
  | some m => npMaximum m w

def B_weighting (log10 : ℚ → ℚ) (frequencies : NpVal ℚ) (min_db : Option ℚ) : NpVal ℚ :=
  let w := mapNp (fun f =>
    let f_sq := f ^ 2
    17/100 + 20 * (log10 (12194 ^ 2)
      + (3/2) * log10 f_sq
      - log10 (f_sq + 12194 ^ 2)
      - log10 (f_sq + (206/10) ^ 2)
      - (1/2) * log10 (f_sq + (1585/10) ^ 2))) frequencies
  match min_db with
  | none => w
  | some m => npMaximum m w

def C_weighting (log10 : ℚ → ℚ) (frequencies : NpVal ℚ) (min_db : Option ℚ) : NpVal ℚ :=
  let w := mapNp (fun f =>
    let f_sq := f ^ 2
    62/1000 + 20 * (log10 (12194 ^ 2)
      + log10 f_sq
      - log10 (f_sq + 12194 ^ 2)
      - log10 (f_sq + (206/10) ^ 2))) frequencies
  match min_db with
  | none => w
  | some m => npMaximum m w

def D_weighting (log10 : ℚ → ℚ) (frequencies : NpVal ℚ) (min_db : Option ℚ) : NpVal ℚ :=
  let w := mapNp (fun f =>
    let f_sq := f ^ 2
    20 * ((1/2) * log10 f_sq
      - log10 ((83046305/10000000000) ^ 2)
      + (1/2) * (log10 (((10187/10) ^ 2 - f_sq) ^ 2 + (10396/10) ^ 2 * f_sq)
        - log10 (((31365/10) ^ 2 - f_sq) ^ 2 + 3424 ^ 2 * f_sq)
        - log10 ((2827/10) ^ 2 + f_sq)
        - log10 (1160 ^ 2 + f_sq)))) frequencies
  match min_db with
  | none => w
  | some m => npMaximum m w

/-- `len(frequencies)`: defined for arrays; a scalar raises `TypeError`. -/
def pyLen {α : Type} (v : NpVal α) : Except String Nat :=
  match v with
  | .scalar _ => .error "TypeError: object of type numpy.float64 has no len()"
  | .arr xs => .ok xs.length

/-- `Z_weighting(frequencies, min_db)`:
`np.zeros(len(frequencies))`, optionally clamped by `np.maximum(min_db, ·)`. -/
def Z_weighting (frequencies : NpVal ℚ) (min_db : Option ℚ) : Except String (NpVal ℚ) :=
  match pyLen frequencies with
  | .error e => .error e
  | .ok n =>
    let weights : NpVal ℚ := .arr (List.replicate n 0)
    match min_db with
    | none => .ok weights
    | some m => .ok (npMaximum m weights)

/-! ### Helper lemmas for the theorems -/

lemma key_to_notes_ok_of_Cmaj (u : Bool) : ∃ nm, key_to_notes "C:maj" u = .ok nm := by
  cases u
  · exact ⟨_, rfl⟩
  · exact ⟨_, rfl⟩

lemma improper_key_ne_cents_msg (key : String) :
    ("Improper key format: " ++ key) ≠ "Cannot encode cents without octave information." := by
  intro h
  have h2 := congrArg (fun s => s.data.head?) h
  simp [String.data_append] at h2

lemma key_to_notes_error_ne_cents_msg (key : String) (u : Bool) (e : String)
    (h : key_to_notes key u = .error e) :
    e ≠ "Cannot encode cents without octave information." := by
  unfold key_to_notes at h
  split at h
  · have he : "Improper key format: " ++ key = e := by
      simpa using h
    rw [← he]
    exact improper_key_ne_cents_msg key
  · split at h
    · simp at h
    · have he : "UnboundLocalError: local variable use_sharps referenced before assignment" = e := by
        simpa using h
      rw [← he]
      decide

/-- The tonic letters the key regex can produce. -/
def keyLetters : List Char :=
  ['A', 'B', 'C', 'D', 'E', 'F', 'G', 'a', 'b', 'c', 'd', 'e', 'f', 'g']

/-- The accidental groups the key regex can produce. -/
def keyAccOptions : List (Option Char) :=
  [none, some '#', some '♯', some 'b', some '!', some '♭']

lemma mem_keyLetters (c : Char) (h : isNoteLetter c = true) : c ∈ keyLetters := by
  simp only [isNoteLetter, Bool.or_eq_true, beq_iff_eq] at h
  simp only [keyLetters, List.mem_cons, List.not_mem_nil, or_false]
  tauto

lemma takeKeyAcc_sound (cs : List Char) (a : Option Char) (r : List Char)
    (h : takeKeyAcc cs = (a, r)) : a ∈ keyAccOptions := by
  cases cs with
  | nil =>
    simp only [takeKeyAcc, Prod.mk.injEq] at h
    simp [keyAccOptions, ← h.1]
  | cons c cs' =>
    simp only [takeKeyAcc] at h
    split_ifs at h with hacc
    · simp only [Prod.mk.injEq] at h
      obtain ⟨rfl, rfl⟩ := h
      simp only [isKeyAccidentalChar, Bool.or_eq_true, beq_iff_eq] at hacc
      simp only [keyAccOptions, List.mem_cons, List.not_mem_nil, or_false,
        Option.some.injEq]
      tauto
    · simp only [Prod.mk.injEq] at h
      simp [keyAccOptions, ← h.1]

lemma parseKey_sound (cs : List Char) (t : Char) (a : Option Char) (m : Bool)
    (h : parseKey cs = some (t, a, m)) :
    t ∈ keyLetters ∧ a ∈ keyAccOptions := by
  unfold parseKey at h
  split at h
  next => exact absurd h (by simp)
  next tc rest =>
    split_ifs at h with hl
    split at h
    next acc r2 heq =>
      rw [Option.map_eq_some'] at h
      obtain ⟨mj, _, heq2⟩ := h
      obtain ⟨rfl, rfl, rfl⟩ : tc = t ∧ acc = a ∧ mj = m := by
        simpa [Prod.ext_iff] using heq2
      exact ⟨mem_keyLetters tc hl, takeKeyAcc_sound rest acc _ heq⟩
    next => exact absurd h (by simp)

/-! ### Claims about the sample/frame/time conversion family -/

/-- C5: for every integer frame index `f ≥ 0` and hop length `h > 0`, with no
FFT window supplied, `samples_to_frames (frames_to_samples f h) h = f`:
the frame→sample map followed by the sample→frame map is the identity. -/
theorem frames_samples_round_trip (f h : Int) (_hf : 0 ≤ f) (hh : 0 < h) :
    samples_to_frames (frames_to_samples (.scalar f) h none) h none = .scalar f := by
  simp only [frames_to_samples, samples_to_frames, mapNp, frames_to_samples_c,
    samples_to_frames_c, fftOffset, add_zero, sub_zero]
  rw [Int.mul_fdiv_cancel f (ne_of_gt hh)]

theorem frames_samples_round_trip_witness :
    (0 : Int) ≤ 3 ∧ (0 : Int) < 512 ∧
      samples_to_frames (frames_to_samples (.scalar 3) 512 none) 512 none = .scalar (3 : Int) :=
  ⟨by decide, by decide, frames_samples_round_trip 3 512 (by decide) (by decide)⟩

/-- C8: every function of the sample/frame/time conversion family returns a
value of the same shape as its input: a scalar maps to a scalar and an array
to an array of the same length.  (The embedded functions are pure maps over
the input value, so the input itself is never mutated.) -/
theorem conversion_family_preserves_shape :
    (∀ (v : NpVal Int) (hop : Int) (nfft : Option Int),
      npShape (frames_to_samples v hop nfft) = npShape v) ∧
    (∀ (v : NpVal Int) (hop : Int) (nfft : Option Int),
      npShape (samples_to_frames v hop nfft) = npShape v) ∧
    (∀ (v : NpVal Int) (sr : ℚ) (hop : Int) (nfft : Option Int),
      npShape (frames_to_time v sr hop nfft) = npShape v) ∧
    (∀ (v : NpVal ℚ) (sr : ℚ) (hop : Int) (nfft : Option Int),
      npShape (time_to_frames v sr hop nfft) = npShape v) ∧
    (∀ (v : NpVal ℚ) (sr : ℚ), npShape (time_to_samples v sr) = npShape v) ∧
    (∀ (v : NpVal Int) (sr : ℚ), npShape (samples_to_time v sr) = npShape v) := by
  refine ⟨?_, ?_, ?_, ?_, ?_, ?_⟩ <;> intros <;>
    simp [frames_to_samples, samples_to_frames, frames_to_time, time_to_frames,
      time_to_samples, samples_to_time, npShape_mapNp]

/-! ### Claims about `midi_to_note` -/

/-- C1 (code bug): `midi_to_note` computes the octave number with
`int(note_num / 12) - 1`, which truncates toward zero; at `midi = -2` this
yields `'A♯-1'`, while the claimed decomposition
`octave = floor(round(midi)/12) - 1` (and the function's own docstring
example `midi_to_note(-2) == 'A♯-2'`) requires `'A♯-2'`.  The embedded code
evaluates at the failing input to the buggy value, and the floor-based
octave the claim prescribes differs from the truncation-based octave the
code computes. -/
theorem midi_to_note_negative_octave_bug :
    midi_to_note (-2) true false "C:maj" true = .ok "A♯-1" ∧
    pyTrunc ((-2 : ℚ) / 12) - 1 = -1 ∧
    Int.fdiv (-2) 12 - 1 = -2 := by
  refine ⟨by with_unfolding_all rfl, by with_unfolding_all rfl, by rfl⟩

/-- C7: `midi_to_note` raises `ParameterError` with the cents-without-octave
message exactly when `cents = true` and `octave = false` — for every midi
value and every key string, i.e. before any conversion or key parsing is
attempted — and with any other combination of the two flags (under the
default key `'C:maj'`) no error at all is raised. -/
theorem midi_to_note_cents_requires_octave :
    (∀ (m : ℚ) (oc ce : Bool) (key : String) (u : Bool),
      midi_to_note m oc ce key u = .error "Cannot encode cents without octave information." ↔
        (ce = true ∧ oc = false)) ∧
    (∀ (m : ℚ) (oc ce u : Bool), ¬(ce = true ∧ oc = false) →
      (midi_to_note m oc ce "C:maj" u).isOk = true) := by
  constructor
  · intro m oc ce key u
    constructor
    · intro h
      by_cases hco : ce = true ∧ oc = false
      · exact hco
      · exfalso
        have hnot : (ce && !oc) = false := by
          cases ce <;> cases oc <;> simp_all
        unfold midi_to_note at h
        rw [hnot] at h
        simp only [Bool.false_eq_true, if_false] at h
        rcases hk : key_to_notes key u with e | nm <;> rw [hk] at h <;> simp at h
        exact key_to_notes_error_ne_cents_msg key u e hk h
    · rintro ⟨hce, hoc⟩
      subst hce; subst hoc
      simp [midi_to_note]
  · intro m oc ce u h
    obtain ⟨nm, hk⟩ := key_to_notes_ok_of_Cmaj u
    cases oc <;> cases ce
    · simp [midi_to_note, hk, Except.isOk, Except.toBool]
    · exact absurd ⟨rfl, rfl⟩ h
    · simp [midi_to_note, hk, Except.isOk, Except.toBool]
    · simp [midi_to_note, hk, Except.isOk, Except.toBool]

theorem midi_to_note_cents_requires_octave_witness :
    (midi_to_note 60 true false "C:maj" true).isOk = true :=
  midi_to_note_cents_requires_octave.2 60 true false true (by decide)

/-! ### Claim about `Z_weighting` -/

/-- C10: `Z_weighting` is defined only for sized inputs: on an array of `n`
frequencies it returns `n` zeros — each clamped to `max min_db 0` when
`min_db` is supplied — while a scalar input fails with a `TypeError`
because `len` is taken of the input; the A/B/C/D curves, by contrast,
accept scalars (scalar in, scalar out, for any value of `log10`). -/
theorem Z_weighting_requires_sized_input :
    (∀ xs : List ℚ, Z_weighting (.arr xs) none = .ok (.arr (List.replicate xs.length 0))) ∧
    (∀ (xs : List ℚ) (m : ℚ),
      Z_weighting (.arr xs) (some m) = .ok (.arr (List.replicate xs.length (max m 0)))) ∧
    (∀ (q : ℚ) (min_db : Option ℚ), ∃ e, Z_weighting (.scalar q) min_db = .error e) ∧
    (∀ (lg : ℚ → ℚ) (q : ℚ) (min_db : Option ℚ), ∃ y, A_weighting lg (.scalar q) min_db = .scalar y) ∧
    (∀ (lg : ℚ → ℚ) (q : ℚ) (min_db : Option ℚ), ∃ y, B_weighting lg (.scalar q) min_db = .scalar y) ∧
    (∀ (lg : ℚ → ℚ) (q : ℚ) (min_db : Option ℚ), ∃ y, C_weighting lg (.scalar q) min_db = .scalar y) ∧
    (∀ (lg : ℚ → ℚ) (q : ℚ) (min_db : Option ℚ), ∃ y, D_weighting lg (.scalar q) min_db = .scalar y) := by
  refine ⟨?_, ?_, ?_, ?_, ?_, ?_, ?_⟩
  · intro xs
    simp [Z_weighting, pyLen]
  · intro xs m
    simp [Z_weighting, pyLen, npMaximum, mapNp, List.map_replicate]
  · intro q min_db
    exact ⟨_, rfl⟩
  all_goals
    intro lg q min_db
    cases min_db
    · exact ⟨_, rfl⟩
    · exact ⟨_, rfl⟩

/-! ### Claims about `key_to_notes` -/

/-- Pitch class denoted by a note name: its (rounded) MIDI value under
`note_to_midi`, reduced mod 12.  (It is applied only to spelling-table
names, which contain no digit characters, so every digit class gives the
same result; the ASCII restriction is used.) -/
def pcOfName (s : String) : Option Int :=
  match note_to_midi asciiDigits s true with
  | .error _ => none
  | .ok q => some ((pyTrunc q).emod 12)

/-- C9: for every key string accepted by the key regex, `key_to_notes`
returns (without error) a list of exactly 12 note names, for either value of
the `unicode` flag; moreover on such keys the `use_sharps` variable is
assigned on every reachable path, because `tonic_number = 6` can only happen
when the tonic carries an explicit accidental (`keyAccOffset a ≠ 0`). -/
theorem key_to_notes_total_on_wellformed (s : String) (t : Char) (a : Option Char)
    (m u : Bool) (hp : parseKey s.data = some (t, a, m)) :
    ∃ ns, key_to_notes s u = .ok ns ∧ ns.length = 12 ∧
      (keyAccOffset a = 0 → keyTonicNum t a m ≠ 6) := by
  obtain ⟨hl, ha⟩ := parseKey_sound s.data t a m hp
  have hfin : ∀ t2 ∈ keyLetters, ∀ a2 ∈ keyAccOptions, ∀ m2 u2 : Bool,
      ((key_to_notes_core t2 a2 m2 u2).map List.length = some 12) ∧
      (keyAccOffset a2 = 0 → keyTonicNum t2 a2 m2 ≠ 6) := by decide
  obtain ⟨h12, h6⟩ := hfin t hl a ha m u
  rcases hc : key_to_notes_core t a m u with _ | ns
  · rw [hc] at h12
    simp at h12
  · rw [hc] at h12
    simp only [Option.map_some', Option.some.injEq] at h12
    refine ⟨ns, ?_, h12, h6⟩
    simp [key_to_notes, hp, hc]

theorem key_to_notes_total_on_wellformed_witness :
    ∃ ns, key_to_notes "C:maj" true = .ok ns ∧ ns.length = 12 ∧
      (keyAccOffset none = 0 → keyTonicNum 'C' none true ≠ 6) :=
  key_to_notes_total_on_wellformed "C:maj" 'C' none true true (by decide)

/-- C4: for every well-formed key, the sharp/flat choice is: flats whenever
the tonic carries an explicit flat, sharps whenever it carries an explicit
sharp, and with no explicit accidental, sharps exactly when `tonic_number`
lies in `[0, 6)` and flats exactly when `tonic_number > 6` (`keyUseSharps`
is the choice that selects the sharp or flat base table in
`key_to_notes_core`). -/
theorem key_sharp_flat_decision (s : String) (t : Char) (a : Option Char) (m : Bool)
    (_hp : parseKey s.data = some (t, a, m)) :
    (keyAccOffset a < 0 → keyUseSharps t a m = some false) ∧
    (0 < keyAccOffset a → keyUseSharps t a m = some true) ∧
    (keyAccOffset a = 0 →
      ((keyUseSharps t a m = some true ↔ 0 ≤ keyTonicNum t a m ∧ keyTonicNum t a m < 6) ∧
       (keyUseSharps t a m = some false ↔ 6 < keyTonicNum t a m))) := by
  refine ⟨?_, ?_, ?_⟩ <;> intro h
  · simp [keyUseSharps, use_sharps_opt, h]
  · have h2 : ¬keyAccOffset a < 0 := by omega
    simp [keyUseSharps, use_sharps_opt, h, h2]
  · rw [keyUseSharps, use_sharps_opt, h]
    norm_num
    constructor
    · split_ifs with h1 h2 <;> simp_all
    · split_ifs with h1 h2 <;> simp_all
      omega

theorem key_sharp_flat_decision_witness :
    keyUseSharps 'D' (some 'b') true = some false :=
  (key_sharp_flat_decision "Db:maj" 'D' (some 'b') true (by decide)).1 (by decide)

/-- C2: for every well-formed key that is spelled with sharps and requires
`n_sharps ≥ 6`, the resulting table is the single-sharp chromatic table with
exactly the first `n_sharps - 6 + 1` entries of the ordered correction list
`5→E♯, 0→B♯, 7→F𝄪, 2→C𝄪, 9→G𝄪, 4→D𝄪, 11→A𝄪` overwritten (all other
semitone entries are unchanged); in particular `key_to_notes('A#:min')` has
entry 0 equal to `B♯` and entry 5 equal to `E♯`. -/
theorem key_sharp_corrections_applied (s : String) (t : Char) (a : Option Char) (m : Bool)
    (hp : parseKey s.data = some (t, a, m))
    (hus : keyUseSharps t a m = some true)
    (h6 : 6 ≤ keyNSharps t a m) :
    (key_to_notes_core t a m true =
      some (applyCorrections sharp_corrections (keyNSharps t a m - 6 + 1) notes_sharp)) ∧
    (∀ p ∈ sharp_corrections.take (keyNSharps t a m - 6 + 1).toNat,
      (applyCorrections sharp_corrections (keyNSharps t a m - 6 + 1) notes_sharp).getD p.1 ""
        = p.2) ∧
    (∀ i ∈ List.range 12,
      i ∉ (sharp_corrections.take (keyNSharps t a m - 6 + 1).toNat).map Prod.fst →
      (applyCorrections sharp_corrections (keyNSharps t a m - 6 + 1) notes_sharp).getD i ""
        = notes_sharp.getD i "") ∧
    (∃ ns, key_to_notes "A#:min" true = .ok ns ∧ ns.getD 0 "" = "B♯" ∧ ns.getD 5 "" = "E♯") := by
  obtain ⟨hl, ha⟩ := parseKey_sound s.data t a m hp
  have hfin : ∀ t2 ∈ keyLetters, ∀ a2 ∈ keyAccOptions, ∀ m2 : Bool,
      keyUseSharps t2 a2 m2 = some true → 6 ≤ keyNSharps t2 a2 m2 →
      (key_to_notes_core t2 a2 m2 true =
        some (applyCorrections sharp_corrections (keyNSharps t2 a2 m2 - 6 + 1) notes_sharp)) ∧
      (∀ p ∈ sharp_corrections.take (keyNSharps t2 a2 m2 - 6 + 1).toNat,
        (applyCorrections sharp_corrections (keyNSharps t2 a2 m2 - 6 + 1) notes_sharp).getD p.1 ""
          = p.2) ∧
      (∀ i ∈ List.range 12,
        i ∉ (sharp_corrections.take (keyNSharps t2 a2 m2 - 6 + 1).toNat).map Prod.fst →
        (applyCorrections sharp_corrections (keyNSharps t2 a2 m2 - 6 + 1) notes_sharp).getD i ""
          = notes_sharp.getD i "") := by decide
  obtain ⟨h1, h2, h3⟩ := hfin t hl a ha m hus h6
  exact ⟨h1, h2, h3, ⟨_, rfl, by decide, by decide⟩⟩

theorem key_sharp_corrections_applied_witness :
    key_to_notes_core 'A' (some '#') false true =
      some (applyCorrections sharp_corrections (keyNSharps 'A' (some '#') false - 6 + 1)
        notes_sharp) :=
  (key_sharp_corrections_applied "A#:min" 'A' (some '#') false (by decide) (by decide)
    (by decide)).1

/-- C3: whenever the parsed tonic letter is `B` (after upper-casing) and the
computed `tonic_number` is 0 — i.e. the key B♯:maj — the sharp count is
treated as 12, all seven sharp corrections are applied, and the resulting
table differs from `key_to_notes('C:maj')` as a list of spellings while every
entry denotes the same pitch class (MIDI value mod 12 under `note_to_midi`)
as the corresponding `C:maj` entry. -/
theorem key_Bsharp_twelve_sharps (s : String) (t : Char) (a : Option Char) (m : Bool)
    (hp : parseKey s.data = some (t, a, m))
    (hB : pyUpper t = 'B') (h0 : keyTonicNum t a m = 0) :
    keyNSharps t a m = 12 ∧
    key_to_notes_core t a m true = some (applyCorrections sharp_corrections 7 notes_sharp) ∧
    key_to_notes "C:maj" true = .ok notes_sharp ∧
    applyCorrections sharp_corrections 7 notes_sharp ≠ notes_sharp ∧
    (∀ i ∈ List.range 12,
      pcOfName ((applyCorrections sharp_corrections 7 notes_sharp).getD i "") =
        pcOfName (notes_sharp.getD i "")) := by
  obtain ⟨hl, ha⟩ := parseKey_sound s.data t a m hp
  have hfin : ∀ t2 ∈ keyLetters, ∀ a2 ∈ keyAccOptions, ∀ m2 : Bool,
      pyUpper t2 = 'B' → keyTonicNum t2 a2 m2 = 0 →
      keyNSharps t2 a2 m2 = 12 ∧
      key_to_notes_core t2 a2 m2 true =
        some (applyCorrections sharp_corrections 7 notes_sharp) := by decide
  obtain ⟨h12, hcore⟩ := hfin t hl a ha m hB h0
  refine ⟨h12, hcore, rfl, by decide, by with_unfolding_all decide⟩

theorem key_Bsharp_twelve_sharps_witness :
    keyNSharps 'B' (some '#') true = 12 :=
  (key_Bsharp_twelve_sharps "B#:maj" 'B' (some '#') true (by decide) (by decide)
    (by decide)).1

/-! ### The note grammar (claim C6)

`SpecNoteGrammar` is the grammar exactly as the specification states it: a
letter `A`-`G` (case-insensitive), zero or more accidentals from
`{#,♯,𝄪,b,!,♭,𝄫,♮}`, an optional signed octave integer, and an optional
signed cents integer.  It is written from the spec's words, to be compared
with the source's regex matcher `matchNote`.  Both sides read the integers
over the same digit class `dg`, and the comparison theorem quantifies over
every `PyDigitClass`, so it applies in particular to the true Unicode class
`Nd` that Python's `\d` denotes. -/

/-- An optional occurrence of an optionally-signed decimal integer over the
digit class `dg`: either empty, or an optional single `+`/`-` followed by
one or more digits. -/
def OptSignedInt (dg : Char → Bool) (xs : List Char) : Prop :=
  xs = [] ∨ ∃ sgn ds, (sgn = ([] : List Char) ∨ sgn = ['+'] ∨ sgn = ['-']) ∧
    ds ≠ [] ∧ (∀ c ∈ ds, dg c = true) ∧ xs = sgn ++ ds

/-- Modelled from the spec: the grammar
`<letter A-G case-insensitive><accidentals, zero or more><optional signed
octave integer><optional signed cents integer>` covering the whole string,
with the integers read over the digit class `dg`. -/
def SpecNoteGrammar (dg : Char → Bool) (s : String) : Prop :=
  ∃ (l : Char) (accs oct cents : List Char),
    s.data = l :: (accs ++ oct ++ cents) ∧
    isNoteLetter l = true ∧
    (∀ c ∈ accs, isAccidentalChar c = true) ∧
    OptSignedInt dg oct ∧ OptSignedInt dg cents

/-- The grammar, allowing also a single trailing newline (which Python's
`$` anchor accepts). -/
def SpecNoteGrammarNL (dg : Char → Bool) (s : String) : Prop :=
  SpecNoteGrammar dg s ∨ ∃ cs, s.data = cs ++ ['\n'] ∧ SpecNoteGrammar dg (String.mk cs)

/-! #### Structure of the greedy matchers -/

lemma spanP_eq_append (p : Char → Bool) (cs : List Char) :
    (spanP p cs).1 ++ (spanP p cs).2 = cs := by
  induction cs with
  | nil => rfl
  | cons c cs ih =>
    unfold spanP
    split_ifs with hc
    · simpa using ih
    · rfl

lemma spanP_all (p : Char → Bool) (cs : List Char) :
    ∀ c ∈ (spanP p cs).1, p c = true := by
  induction cs with
  | nil => simp [spanP]
  | cons c cs ih =>
    unfold spanP
    split_ifs with hc
    · simpa [hc] using ih
    · simp

lemma spanP_head (p : Char → Bool) (cs : List Char) :
    ∀ d r, (spanP p cs).2 = d :: r → p d = false := by
  induction cs with
  | nil => simp [spanP]
  | cons c cs ih =>
    unfold spanP
    split_ifs with hc
    · simpa using ih
    · intro d r h
      obtain ⟨rfl, rfl⟩ : c = d ∧ cs = r := by simpa using h
      simpa using hc

lemma spanP_append_of (p : Char → Bool) (t r : List Char)
    (ht : ∀ c ∈ t, p c = true)
    (hr : ∀ d r2, r = d :: r2 → p d = false) :
    spanP p (t ++ r) = (t, r) := by
  induction t with
  | nil =>
    cases r with
    | nil => rfl
    | cons d r2 =>
      simp only [List.nil_append, spanP, hr d r2 rfl, Bool.false_eq_true, if_false]
  | cons c t' ih =>
    have hc : p c = true := ht c (by simp)
    have ih2 := ih (fun x hx => ht x (by simp [hx]))
    simp only [List.cons_append, spanP, hc, if_true]
    rw [show t'.append r = t' ++ r from rfl, ih2]

lemma takeOctave_eq_append (dg : Char → Bool) (cs : List Char) :
    (takeOctave dg cs).1 ++ (takeOctave dg cs).2 = cs := by
  cases cs with
  | nil => rfl
  | cons c rest =>
    simp only [takeOctave]
    split_ifs with h1 h2
    · simpa using spanP_eq_append dg rest
    · cases rest with
      | nil => rfl
      | cons d ds =>
        dsimp only
        split_ifs with h3
        · simpa using spanP_eq_append dg ds
        · rfl
    · rfl

lemma takeCents_eq_append (dg : Char → Bool) (cs : List Char) :
    (takeCents dg cs).1 ++ (takeCents dg cs).2 = cs := by
  cases cs with
  | nil => rfl
  | cons c rest =>
    simp only [takeCents]
    split_ifs with h1
    · cases rest with
      | nil => rfl
      | cons d ds =>
        dsimp only
        split_ifs with h3
        · simpa using spanP_eq_append dg ds
        · rfl
    · rfl

lemma takeOctave_shape (dg : Char → Bool) (cs : List Char) :
    OptSignedInt dg (takeOctave dg cs).1 := by
  cases cs with
  | nil => exact Or.inl rfl
  | cons c rest =>
    simp only [takeOctave]
    split_ifs with h1 h2
    · refine Or.inr ⟨[], c :: (spanP dg rest).1, Or.inl rfl, by simp, ?_, by simp⟩
      intro x hx
      rcases List.mem_cons.mp hx with rfl | hx2
      · exact h1
      · exact spanP_all dg rest x hx2
    · cases rest with
      | nil => exact Or.inl rfl
      | cons d ds =>
        dsimp only
        split_ifs with h3
        · refine Or.inr ⟨[c], d :: (spanP dg ds).1, ?_, by simp, ?_, by simp⟩
          · rcases sign_eq_of_isSignChar h2 with rfl | rfl
            · exact Or.inr (Or.inl rfl)
            · exact Or.inr (Or.inr rfl)
          · intro x hx
            rcases List.mem_cons.mp hx with rfl | hx2
            · exact h3
            · exact spanP_all dg ds x hx2
        · exact Or.inl rfl
    · exact Or.inl rfl

lemma takeCents_shape (dg : Char → Bool) (cs : List Char) :
    OptSignedInt dg (takeCents dg cs).1 := by
  cases cs with
  | nil => exact Or.inl rfl
  | cons c rest =>
    simp only [takeCents]
    split_ifs with h1
    · cases rest with
      | nil => exact Or.inl rfl
      | cons d ds =>
        dsimp only
        split_ifs with h3
        · refine Or.inr ⟨[c], d :: (spanP dg ds).1, ?_, by simp, ?_, by simp⟩
          · rcases sign_eq_of_isSignChar h1 with rfl | rfl
            · exact Or.inr (Or.inl rfl)
            · exact Or.inr (Or.inr rfl)
          · intro x hx
            rcases List.mem_cons.mp hx with rfl | hx2
            · exact h3
            · exact spanP_all dg ds x hx2
        · exact Or.inl rfl
    · exact Or.inl rfl

lemma atLineEnd_cases (cs : List Char) (h : atLineEnd cs = true) :
    cs = [] ∨ cs = ['\n'] := by
  simpa [atLineEnd] using h

/-- Soundness of the source regex matcher: a successful match decomposes the
input according to the grammar, up to a single trailing newline. -/
lemma matchNote_sound (dg : Char → Bool) (cs : List Char) (nm : NoteMatch)
    (h : matchNote dg cs = some nm) :
    isNoteLetter nm.letter = true ∧
    (∀ c ∈ nm.accidentals, isAccidentalChar c = true) ∧
    OptSignedInt dg nm.octavePart ∧ OptSignedInt dg nm.centsPart ∧
    (cs = nm.letter :: (nm.accidentals ++ nm.octavePart ++ nm.centsPart) ∨
     cs = nm.letter :: (nm.accidentals ++ nm.octavePart ++ nm.centsPart ++ ['\n'])) := by
  cases cs with
  | nil => simp [matchNote] at h
  | cons c rest =>
    simp only [matchNote] at h
    split_ifs at h with hl hend
    · rw [Option.some.injEq] at h
      subst h
      refine ⟨hl, spanP_all isAccidentalChar rest, takeOctave_shape dg _, takeCents_shape dg _,
        ?_⟩
      have e1 := spanP_eq_append isAccidentalChar rest
      have e2 := takeOctave_eq_append dg (spanP isAccidentalChar rest).2
      have e3 := takeCents_eq_append dg (takeOctave dg (spanP isAccidentalChar rest).2).2
      rcases atLineEnd_cases _ hend with hnl | hnl
      · left
        rw [hnl, List.append_nil] at e3
        simp only [List.append_assoc, e3, e2, e1]
      · right
        rw [hnl] at e3
        simp only [List.append_assoc, e3, e2, e1]

/-! #### Evaluation of the greedy matchers on grammar-shaped input -/

lemma headFail_digit_nl (D : PyDigitClass) (nl : List Char) (h : nl = [] ∨ nl = ['\n']) :
    ∀ x r2, nl = x :: r2 → D.isDigit x = false := by
  rcases h with rfl | rfl <;> intro x r2 hx
  · exact absurd hx (by simp)
  · obtain ⟨rfl, -⟩ : '\n' = x ∧ ([] : List Char) = r2 := by simpa using hx
    exact D.newline_not_isDigit

lemma headFail_digit_signed (D : PyDigitClass) (sg : Char) (hsg : isSignChar sg = true)
    (xs r : List Char) :
    ∀ x r2, (sg :: xs) ++ r = x :: r2 → D.isDigit x = false := by
  intro x r2 hx
  obtain ⟨rfl, -⟩ : sg = x ∧ xs ++ r = r2 := by simpa using hx
  exact not_digit_of_sign D hsg

lemma takeOctave_stop (D : PyDigitClass) (r : List Char) (h : r = [] ∨ r = ['\n']) :
    takeOctave D.isDigit r = ([], r) := by
  rcases h with rfl | rfl
  · rfl
  · simp [takeOctave, D.newline_not_isDigit, isSignChar]

lemma takeCents_stop (dg : Char → Bool) (r : List Char) (h : r = [] ∨ r = ['\n']) :
    takeCents dg r = ([], r) := by
  rcases h with rfl | rfl <;> rfl

lemma takeOctave_digits (dg : Char → Bool) (d : Char) (ds r : List Char)
    (hd : dg d = true) (hds : ∀ c ∈ ds, dg c = true)
    (hr : ∀ x r2, r = x :: r2 → dg x = false) :
    takeOctave dg (d :: (ds ++ r)) = (d :: ds, r) := by
  simp only [takeOctave, hd, if_true]
  rw [spanP_append_of dg ds r hds hr]

lemma takeOctave_signed (dg : Char → Bool) (sg d : Char) (ds r : List Char)
    (hsgd : dg sg = false) (hsg : isSignChar sg = true) (hd : dg d = true)
    (hds : ∀ c ∈ ds, dg c = true)
    (hr : ∀ x r2, r = x :: r2 → dg x = false) :
    takeOctave dg (sg :: d :: (ds ++ r)) = (sg :: d :: ds, r) := by
  simp only [takeOctave, hsgd, Bool.false_eq_true, if_false, hsg, if_true, hd]
  rw [spanP_append_of dg ds r hds hr]

lemma takeCents_signed (dg : Char → Bool) (sg d : Char) (ds r : List Char)
    (hsg : isSignChar sg = true) (hd : dg d = true)
    (hds : ∀ c ∈ ds, dg c = true)
    (hr : ∀ x r2, r = x :: r2 → dg x = false) :
    takeCents dg (sg :: d :: (ds ++ r)) = (sg :: d :: ds, r) := by
  simp only [takeCents, hsg, if_true, hd]
  rw [spanP_append_of dg ds r hds hr]

/-- Greedy octave take on any optional-signed-integer prefix followed by a
non-digit-headed remainder. -/
lemma takeOctave_osi (D : PyDigitClass) (sgn ds r : List Char)
    (hs : sgn = [] ∨ sgn = ['+'] ∨ sgn = ['-'])
    (hne : ds ≠ []) (hd : ∀ c ∈ ds, D.isDigit c = true)
    (hr : ∀ x r2, r = x :: r2 → D.isDigit x = false) :
    takeOctave D.isDigit ((sgn ++ ds) ++ r) = (sgn ++ ds, r) := by
  cases ds with
  | nil => exact absurd rfl hne
  | cons d ds' =>
    have hdt : D.isDigit d = true := hd d (by simp)
    have hds' : ∀ c ∈ ds', D.isDigit c = true := fun c hc => hd c (by simp [hc])
    rcases hs with rfl | rfl | rfl
    · simpa using takeOctave_digits D.isDigit d ds' r hdt hds' hr
    · simpa using takeOctave_signed D.isDigit '+' d ds' r (not_digit_of_sign D (by decide))
        (by decide) hdt hds' hr
    · simpa using takeOctave_signed D.isDigit '-' d ds' r (not_digit_of_sign D (by decide))
        (by decide) hdt hds' hr

/-- Completeness of the source regex matcher: every string of the grammar
shape (with an optional trailing newline) is matched. -/
lemma matchNote_complete (D : PyDigitClass) (l : Char) (accs oct cents nl : List Char)
    (hl : isNoteLetter l = true)
    (haccs : ∀ c ∈ accs, isAccidentalChar c = true)
    (hoct : OptSignedInt D.isDigit oct) (hcents : OptSignedInt D.isDigit cents)
    (hnl : nl = [] ∨ nl = ['\n']) :
    ∃ nm, matchNote D.isDigit (l :: (accs ++ (oct ++ (cents ++ nl)))) = some nm := by
  have hrest : ∀ x r2, oct ++ (cents ++ nl) = x :: r2 → isAccidentalChar x = false := by
    intro x r2 hx
    rcases hoct with rfl | ⟨sgn, ds, hs, hne, hd, rfl⟩
    · rw [List.nil_append] at hx
      rcases hcents with rfl | ⟨sgn2, ds2, hs2, hne2, hd2, rfl⟩
      · rw [List.nil_append] at hx
        rcases hnl with rfl | rfl
        · exact absurd hx (by simp)
        · obtain ⟨rfl, -⟩ : '\n' = x ∧ ([] : List Char) = r2 := by simpa using hx
          decide
      · rcases hs2 with rfl | rfl | rfl
        · rw [List.nil_append] at hx
          cases ds2 with
          | nil => exact absurd rfl hne2
          | cons d2 ds2' =>
            obtain ⟨rfl, -⟩ : d2 = x ∧ ds2' ++ nl = r2 := by simpa using hx
            exact D.isDigit_not_acc d2 (hd2 d2 (by simp))
        · obtain ⟨rfl, -⟩ : '+' = x ∧ ds2 ++ nl = r2 := by simpa using hx
          decide
        · obtain ⟨rfl, -⟩ : '-' = x ∧ ds2 ++ nl = r2 := by simpa using hx
          decide
    · rcases hs with rfl | rfl | rfl
      · rw [List.nil_append] at hx
        cases ds with
        | nil => exact absurd rfl hne
        | cons d ds' =>
          obtain ⟨rfl, -⟩ : d = x ∧ ds' ++ (cents ++ nl) = r2 := by simpa using hx
          exact D.isDigit_not_acc d (hd d (by simp))
      · obtain ⟨rfl, -⟩ : '+' = x ∧ ds ++ (cents ++ nl) = r2 := by simpa using hx
        decide
      · obtain ⟨rfl, -⟩ : '-' = x ∧ ds ++ (cents ++ nl) = r2 := by simpa using hx
        decide
  have hspan : spanP isAccidentalChar (accs ++ (oct ++ (cents ++ nl)))
      = (accs, oct ++ (cents ++ nl)) :=
    spanP_append_of _ _ _ haccs hrest
  suffices h : ∃ O C, takeOctave D.isDigit (oct ++ (cents ++ nl)) = (O, C ++ nl) ∧
      takeCents D.isDigit (C ++ nl) = (C, nl) by
    obtain ⟨O, C, hoc, htc⟩ := h
    refine ⟨⟨l, accs, O, C⟩, ?_⟩
    have hend : atLineEnd nl = true := by rcases hnl with rfl | rfl <;> rfl
    simp only [matchNote, hl, if_true, hspan, hoc, htc, hend]
  rcases hoct with rfl | ⟨sgn, ds, hs, hne, hd, rfl⟩
  · rcases hcents with rfl | ⟨sgn2, ds2, hs2, hne2, hd2, rfl⟩
    · refine ⟨[], [], ?_, ?_⟩
      · simpa using takeOctave_stop D nl hnl
      · simpa using takeCents_stop D.isDigit nl hnl
    · -- the whole (possibly unsigned) cents group is consumed as the octave
      refine ⟨sgn2 ++ ds2, [], ?_, ?_⟩
      · have := takeOctave_osi D sgn2 ds2 nl hs2 hne2 hd2 (headFail_digit_nl D nl hnl)
        simpa [List.append_assoc] using this
      · simpa using takeCents_stop D.isDigit nl hnl
  · rcases hcents with rfl | ⟨sgn2, ds2, hs2, hne2, hd2, rfl⟩
    · refine ⟨sgn ++ ds, [], ?_, ?_⟩
      · have := takeOctave_osi D sgn ds nl hs hne hd (headFail_digit_nl D nl hnl)
        simpa [List.append_assoc] using this
      · simpa using takeCents_stop D.isDigit nl hnl
    · rcases hs2 with rfl | rfl | rfl
      · -- unsigned cents digits merge into the octave digits
        refine ⟨sgn ++ (ds ++ ds2), [], ?_, ?_⟩
        · have hall : ∀ c ∈ ds ++ ds2, D.isDigit c = true := by
            intro c hc
            rcases List.mem_append.mp hc with hc | hc
            · exact hd c hc
            · exact hd2 c hc
          have := takeOctave_osi D sgn (ds ++ ds2) nl hs (by simp [hne]) hall
            (headFail_digit_nl D nl hnl)
          simpa [List.append_assoc] using this
        · simpa using takeCents_stop D.isDigit nl hnl
      · -- signed cents: the octave stops at the '+'
        refine ⟨sgn ++ ds, '+' :: ds2, ?_, ?_⟩
        · have := takeOctave_osi D sgn ds (('+' :: ds2) ++ nl) hs hne hd
            (headFail_digit_signed D '+' (by decide) ds2 nl)
          simpa [List.append_assoc] using this
        · cases ds2 with
          | nil => exact absurd rfl hne2
          | cons d2 ds2' =>
            have hd2t : D.isDigit d2 = true := hd2 d2 (by simp)
            have hds2' : ∀ c ∈ ds2', D.isDigit c = true := fun c hc => hd2 c (by simp [hc])
            simpa using takeCents_signed D.isDigit '+' d2 ds2' nl (by decide) hd2t hds2'
              (headFail_digit_nl D nl hnl)
      · refine ⟨sgn ++ ds, '-' :: ds2, ?_, ?_⟩
        · have := takeOctave_osi D sgn ds (('-' :: ds2) ++ nl) hs hne hd
            (headFail_digit_signed D '-' (by decide) ds2 nl)
          simpa [List.append_assoc] using this
        · cases ds2 with
          | nil => exact absurd rfl hne2
          | cons d2 ds2' =>
            have hd2t : D.isDigit d2 = true := hd2 d2 (by simp)
            have hds2' : ∀ c ∈ ds2', D.isDigit c = true := fun c hc => hd2 c (by simp [hc])
            simpa using takeCents_signed D.isDigit '-' d2 ds2' nl (by decide) hd2t hds2'
              (headFail_digit_nl D nl hnl)

lemma newline_not_mem_osi (D : PyDigitClass) (xs : List Char)
    (h : OptSignedInt D.isDigit xs) : '\n' ∉ xs := by
  intro hmem
  rcases h with rfl | ⟨sgn, ds, hs, hne, hd, rfl⟩
  · simp at hmem
  · rcases List.mem_append.mp hmem with hm | hm
    · rcases hs with rfl | rfl | rfl
      · simp at hm
      · simp at hm
      · simp at hm
    · exact absurd (hd '\n' hm) (by simp [D.newline_not_isDigit])

/-- The source regex matches exactly the strings of the grammar shape, up to
one trailing newline. -/
lemma matchNote_some_iff (D : PyDigitClass) (s : String) :
    (∃ nm, matchNote D.isDigit s.data = some nm) ↔ SpecNoteGrammarNL D.isDigit s := by
  constructor
  · rintro ⟨nm, h⟩
    obtain ⟨hl, haccs, hoct, hcents, hshape⟩ := matchNote_sound D.isDigit s.data nm h
    rcases hshape with hs | hs
    · exact Or.inl ⟨nm.letter, nm.accidentals, nm.octavePart, nm.centsPart, hs, hl, haccs,
        hoct, hcents⟩
    · refine Or.inr ⟨nm.letter :: (nm.accidentals ++ nm.octavePart ++ nm.centsPart), ?_, ?_⟩
      · rw [hs]
        simp
      · exact ⟨nm.letter, nm.accidentals, nm.octavePart, nm.centsPart, rfl, hl, haccs,
          hoct, hcents⟩
  · rintro (⟨l, accs, oct, cents, hdata, hl, haccs, hoct, hcents⟩ |
      ⟨cs, hdata, l, accs, oct, cents, hdata2, hl, haccs, hoct, hcents⟩)
    · have hc := matchNote_complete D l accs oct cents [] hl haccs hoct hcents (Or.inl rfl)
      rw [hdata]
      simpa [List.append_assoc] using hc
    · have hcs : cs = l :: (accs ++ oct ++ cents) := hdata2
      have hc := matchNote_complete D l accs oct cents ['\n'] hl haccs hoct hcents
        (Or.inr rfl)
      rw [hdata, hcs]
      simpa [List.append_assoc] using hc

/-- C6 (amended): for every model `D` of Python's Unicode decimal-digit
class `\d`, `note_to_midi` raises `ParameterError` exactly on the strings
that do not match the grammar
`<letter A-G case-insensitive><accidentals><optional signed octave><optional
signed cents>` (integers read over `D`) — up to one trailing newline, which
Python's `$` anchor (and hence the source regex) also accepts.  In
particular `'H4'` raises, `'C♭𝄫5'` does not, and `"C4\n"` is accepted by
the code while failing the grammar as literally stated (the trailing-newline
counterexample, here proved for every digit class). -/
theorem note_to_midi_error_iff_not_grammar :
    ∀ D : PyDigitClass,
      (∀ (s : String) (r : Bool),
        (∃ e, note_to_midi D s r = .error e) ↔ ¬SpecNoteGrammarNL D.isDigit s) ∧
      (∃ e, note_to_midi D "H4" true = .error e) ∧
      (note_to_midi D "C♭𝄫5" true).isOk = true ∧
      ((note_to_midi D "C4\n" true).isOk = true ∧ ¬SpecNoteGrammar D.isDigit "C4\n") := by
  intro D
  refine ⟨?_, ⟨"Improper note format: " ++ "H4", rfl⟩, ?_, ?_, ?_⟩
  · intro s r
    rw [← matchNote_some_iff]
    constructor
    · rintro ⟨e, he⟩ ⟨nm, hm⟩
      rw [note_to_midi, hm] at he
      simp at he
    · intro h
      rcases hm : matchNote D.isDigit s.data with _ | nm
      · refine ⟨"Improper note format: " ++ s, ?_⟩
        rw [note_to_midi, hm]
      · exact absurd ⟨nm, hm⟩ h
  · have hdig : ∀ c ∈ ['5'], D.isDigit c = true := by
      intro c hc
      obtain rfl : c = '5' := by simpa using hc
      exact D.ascii_isDigit '5' (by decide)
    obtain ⟨nm, hm⟩ := matchNote_complete D 'C' ['♭', '𝄫'] ['5'] [] [] (by decide) (by decide)
      (Or.inr ⟨[], ['5'], Or.inl rfl, by simp, hdig, rfl⟩) (Or.inl rfl) (Or.inl rfl)
    have hm2 : matchNote D.isDigit "C♭𝄫5".data = some nm := hm
    simp [note_to_midi, hm2, Except.isOk, Except.toBool]
  · have hdig : ∀ c ∈ ['4'], D.isDigit c = true := by
      intro c hc
      obtain rfl : c = '4' := by simpa using hc
      exact D.ascii_isDigit '4' (by decide)
    obtain ⟨nm, hm⟩ := matchNote_complete D 'C' [] ['4'] [] ['\n'] (by decide) (by simp)
      (Or.inr ⟨[], ['4'], Or.inl rfl, by simp, hdig, rfl⟩) (Or.inl rfl) (Or.inr rfl)
    have hm2 : matchNote D.isDigit "C4\n".data = some nm := hm
    simp [note_to_midi, hm2, Except.isOk, Except.toBool]
  · rintro ⟨l, accs, oct, cents, hdata, hl, haccs, hoct, hcents⟩
    have hd : "C4\n".data = ['C', '4', '\n'] := rfl
    rw [hd] at hdata
    obtain ⟨rfl, htail⟩ : 'C' = l ∧ ['4', '\n'] = accs ++ oct ++ cents := by
      simpa using hdata
    have hmem : '\n' ∈ accs ++ oct ++ cents := by
      rw [← htail]
      simp
    rcases List.mem_append.mp hmem with hm | hm
    · rcases List.mem_append.mp hm with hm2 | hm2
      · exact absurd (haccs '\n' hm2) (by decide)
      · exact newline_not_mem_osi D oct hoct hm2
    · exact newline_not_mem_osi D cents hcents hm

theorem note_to_midi_error_iff_not_grammar_witness :
    (note_to_midi asciiDigits "C♭𝄫5" true).isOk = true :=
  (note_to_midi_error_iff_not_grammar asciiDigits).2.2.1

/-- C6 counterexample: the claim states that `note_to_midi` raises exactly
when the string does not match the grammar; but `"C4\n"` (a trailing
newline) does not match the grammar as stated, while the code accepts it —
Python's `$` matches just before a trailing newline.  Evaluated here at the
ASCII restriction of `\d`, which agrees with the full Unicode class on this
all-ASCII input (and the amended theorem proves the same two facts for
every digit class). -/
theorem note_to_midi_newline_counterexample :
    (note_to_midi asciiDigits "C4\n" true).isOk = true ∧
    ¬SpecNoteGrammar asciiDigits.isDigit "C4\n" := by
  constructor
  · with_unfolding_all rfl
  · rintro ⟨l, accs, oct, cents, hdata, hl, haccs, hoct, hcents⟩
    have hd : "C4\n".data = ['C', '4', '\n'] := rfl
    rw [hd] at hdata
    obtain ⟨rfl, htail⟩ : 'C' = l ∧ ['4', '\n'] = accs ++ oct ++ cents := by
      simpa using hdata
    have hmem : '\n' ∈ accs ++ oct ++ cents := by
      rw [← htail]
      simp
    rcases List.mem_append.mp hmem with hm | hm
    · rcases List.mem_append.mp hm with hm2 | hm2
      · exact absurd (haccs '\n' hm2) (by decide)
      · exact newline_not_mem_osi asciiDigits oct hoct hm2
    · exact newline_not_mem_osi asciiDigits cents hcents hm

end Librosa
